import Mathlib

/-!
Verification development for the Minitel slideshow encoder
(src/minitel_slideshow_tool.py).

Modelling conventions:
- byte strings are lists of natural numbers, with the hypothesis that
  every element is below 256 where the source relies on byte range;
- Python integers are modelled by Int (or Nat where the source value is
  known non-negative);
- Python floats are modelled by exact rationals.  Every binary64 float
  is a rational number, and the operations the encoder performs on them
  (comparisons, multiplication by a power of two, round-half-to-even)
  are exact on binary64 inputs, so the rational model is faithful;
- raising an exception is modelled by Except / Option results.
-/

namespace Minitel

/-- Canvas width in pixels (SCREEN_WIDTH in the source). -/
def SCREEN_WIDTH : ℕ := 320

/-- Canvas height in pixels (SCREEN_HEIGHT in the source). -/
def SCREEN_HEIGHT : ℕ := 240

/-- Attribute opcode PSA. -/
def PSA : List ℕ := [0x20]

/-- Attribute opcode PDA. -/
def PDA : List ℕ := [0x21]

/-- Attribute opcode SCA. -/
def SCA : List ℕ := [0x24]

/-- Attribute opcode TCA. -/
def TCA : List ℕ := [0x25]

/-- Reset directive opcode (RTD = PSA, 0x30). -/
def RTD : List ℕ := PSA ++ [0x30]

/-- Position directive opcode (PDA_LOC = PDA, 0x32). -/
def PDA_LOC : List ℕ := PDA ++ [0x32]

/-- Size directive opcode (PDA_PAS = PDA, 0x33). -/
def PDA_PAS : List ℕ := PDA ++ [0x33]

/-- Degenerate geometry directive opcode (PDA_PPL = PDA, 0x34). -/
def PDA_PPL : List ℕ := PDA ++ [0x34]

/-- Clear directive opcode (PDA_CPA = PDA, 0x35). -/
def PDA_CPA : List ℕ := PDA ++ [0x35]

/-- Quantization announcement opcode (ETM = SCA, 0x31). -/
def ETM : List ℕ := SCA ++ [0x31]

/-- Translation mode opcode (TME = TCA, 0x30). -/
def TME : List ℕ := TCA ++ [0x30]

/-- Page marker byte PM. -/
def PM : ℕ := 0x23

/-- Instruction marker byte PI. -/
def PI : ℕ := 0x40

/-- Digit-emitting loop of encode_length: repeatedly take the low five
bits of the value, tag with marker bit 0x40 and, for every digit except
the first (least significant) one, continuation bit 0x20.  Digits are
produced least significant first, as the Python while loop appends them. -/
def encode_length_digits (value : ℕ) (first : Bool) : List ℕ :=
  if h : value = 0 then []
  else
    let tmp := (value &&& 31) ||| (1 <<< 6)
    let tmp := if first then tmp else tmp ||| (1 <<< 5)
    tmp :: encode_length_digits (value >>> 5) false
termination_by value
decreasing_by
  simpa [Nat.shiftRight_eq_div_pow] using
    Nat.div_lt_self (Nat.pos_of_ne_zero h) (by norm_num)

/-- encode_length from the source: emit the base-32 digits, append the
0xFF sentinel, and reverse, so the sentinel leads and digits follow most
significant first. -/
def encode_length (value : ℕ) : List ℕ :=
  (encode_length_digits value true ++ [0xFF]).reverse

/-- Modelled from the spec: digit-consuming loop of the length decoder,
which is not part of the repository.  It accumulates base-32 digits most
significant first and stops after the first byte whose continuation bit
0x20 is clear. -/
def decode_length_core : List ℕ → ℕ → ℕ
  | [], acc => acc
  | b :: rest, acc =>
    if b / 32 % 2 = 1 then decode_length_core rest (acc * 32 + b % 32)
    else acc * 32 + b % 32

/-- Modelled from the spec: the length decoder skips the leading 0xFF
sentinel and then consumes the base-32 digits. -/
def decode_length : List ℕ → Option ℕ
  | 0xFF :: rest => some (decode_length_core rest 0)
  | _ => none

/-- The two-sided range test of the encode_integer while loop:
the signed value fits in two-complement width nbits. -/
def fits (number : ℤ) (nbits : ℕ) : Prop :=
  -(2 ^ (nbits - 1) : ℤ) ≤ number ∧ number < 2 ^ (nbits - 1)

instance fits_decidable (number : ℤ) (nbits : ℕ) : Decidable (fits number nbits) :=
  inferInstanceAs (Decidable (_ ∧ _))

/-- Fuel-indexed version of the encode_integer width-search loop; the
fuel is only a structural-recursion device, amply large at every call
site (see int_nbits_fuel_spec below). -/
def int_nbits_fuel : ℕ → ℤ → ℕ → ℕ
  | 0, _, nbits => nbits
  | fuel + 1, number, nbits =>
    if fits number nbits then nbits else int_nbits_fuel fuel number (nbits + 7)

/-- The width search of encode_integer: smallest multiple of 7, starting
at 7 and growing by 7, such that the value fits in two-complement range. -/
def int_nbits (number : ℤ) : ℕ :=
  int_nbits_fuel (number.natAbs + 1) number 7

/-- Big-endian 7-bit digit groups, as produced by the loop
for i in reversed(range(0, nbits, 7)): append((number >> i) & 0x7F). -/
def digits7 (cnt : ℕ) (u : ℕ) : List ℕ :=
  (List.range cnt).reverse.map (fun j => (u >>> (7 * j)) &&& 0x7F)

/-- Error kinds raised by the primitive encoders: a value outside an
encoder domain, or a byte outside range 0..255 handed to a bytes
constructor. -/
inductive EncodeError where
  | domainError
  | byteRange
deriving DecidableEq

/-- encode_integer from the source.  The non-raw header stores the group
count in a single byte via bytes([nbits // 7]), which in Python raises
when the count exceeds 255; that failure is modelled by the byteRange
error. -/
def encode_integer (number : ℤ) (raw : Bool) : Except EncodeError (List ℕ) :=
  let nbits := int_nbits number
  let biased := if number < 0 then number + 2 ^ nbits else number
  if raw then Except.ok (digits7 (nbits / 7) biased.toNat)
  else if nbits / 7 < 256 then
    Except.ok ([0x40, nbits / 7] ++ digits7 (nbits / 7) biased.toNat)
  else Except.error EncodeError.byteRange

/-- Modelled from the spec: the integer decoder, which is not part of
the repository.  It reads the 0x40 tag and the byte count, then
interprets the big-endian 7-bit digit groups as a two-complement value
of width 7 * count. -/
def decode_integer : List ℕ → Option ℤ
  | 0x40 :: cnt :: rest =>
    if rest.length = cnt then
      let u : ℕ := rest.foldl (fun a b => a * 128 + b % 128) 0
      some (if (u : ℤ) < 2 ^ (7 * cnt - 1) then (u : ℤ) else (u : ℤ) - 2 ^ (7 * cnt))
    else none
  | _ => none

/-- Round half to even on rationals, the behaviour of the Python round
builtin on the exact value of a float. -/
def pythonRound (q : ℚ) : ℤ :=
  if q - ⌊q⌋ < 1 / 2 then ⌊q⌋
  else if 1 / 2 < q - ⌊q⌋ then ⌊q⌋ + 1
  else if ⌊q⌋ % 2 = 0 then ⌊q⌋ else ⌊q⌋ + 1

/-- Byte payload of encode_normalized once the domain check has passed:
scale by 2 to the 26, round, bias negative values into the unsigned
28-bit range, and emit tag 0x42, byte count 4, and the 4 big-endian
7-bit digit groups. -/
def normalized_payload (value : ℚ) : List ℕ :=
  let nbytes := 4
  let v0 := pythonRound (value * 2 ^ (7 * nbytes - 2))
  let v := if v0 < 0 then v0 + 2 ^ (7 * nbytes) - 2 ^ (7 * nbytes - 2) else v0
  0x42 :: nbytes :: digits7 nbytes v.toNat

/-- encode_normalized from the source: domain check on [-1, 1], then the
fixed 4-byte payload; out-of-range values raise. -/
def encode_normalized (value : ℚ) : Except EncodeError (List ℕ) :=
  if -1 ≤ value ∧ value ≤ 1 then Except.ok (normalized_payload value)
  else Except.error EncodeError.domainError

/-- Modelled from the spec: the normalized-fraction decoder, which is
not part of the repository.  It reads tag 0x42 and count 4, folds the 4
digit groups into an unsigned 28-bit value, removes the negative bias
when the value lies in the upper range, and divides by 2 to the 26. -/
def decode_normalized : List ℕ → Option ℚ
  | 0x42 :: nbytes :: rest =>
    if nbytes = 4 ∧ rest.length = 4 then
      let u : ℕ := rest.foldl (fun a b => a * 128 + b % 128) 0
      let v : ℤ := if 2 ^ 27 ≤ u then (u : ℤ) - (2 ^ 28 - 2 ^ 26) else (u : ℤ)
      some ((v : ℚ) / 2 ^ 26)
    else none
  | _ => none

/-- encode_boolean from the source: tag 0x45, length 1, payload 1 or 0. -/
def encode_boolean (v : Bool) : List ℕ :=
  [0x45, 0x01, if v then 0x01 else 0x00]

/-- Binary64 (IEEE 754 double) rounding of an exact rational value:
round to nearest with ties to even, keeping 53 significand bits for
magnitudes in the normal range and using the fixed scale 2 ^ -1074
below 2 ^ -1022 (gradual underflow).  Every arithmetic operation the
resize code performs in Python is correctly rounded, so its float
result is exactly this function applied to the exact rational result;
the model is faithful for all magnitudes below the overflow threshold
2 ^ 1024, far above everything the theorems below quantify over. -/
def flRound (q : ℚ) : ℚ :=
  if q = 0 then 0
  else
    let e := max (Int.log 2 |q|) (-1022)
    let scale : ℚ := 2 ^ (e - 52)
    (if q < 0 then -1 else 1) * (pythonRound (|q| / scale) : ℚ) * scale

/-- Dimension computation of resize_image, with every float operation
of the source modelled by its correctly rounded binary64 result: the
two divisions give flRound of the exact quotients, min compares the
float values exactly, the integer width and height are converted to
float (flRound, exact below 2 ^ 53), the product is rounded again, and
the Python round builtin is exact round-half-even on the float value.
The scaled width is then rounded to a multiple of 8 via
(w + 4) // 8 * 8 and the scaled height to a multiple of 10 via
(h + 5) // 10 * 10, in exact integer arithmetic. -/
def resize_dims (w h : ℕ) : ℤ × ℤ :=
  let ratio : ℚ := min (flRound ((SCREEN_WIDTH : ℚ) / w))
    (min (flRound ((SCREEN_HEIGHT : ℚ) / h)) 1)
  let w1 := (pythonRound (flRound (flRound (w : ℚ) * ratio)) + 4).fdiv 8 * 8
  let h1 := (pythonRound (flRound (flRound (h : ℚ) * ratio)) + 5).fdiv 10 * 10
  (w1, h1)

/-- resize_image from the source, reduced to its observable data: the
output dimensions, and whether a resampling step was performed (the
source returns the image unchanged when the rounded dimensions equal the
originals). -/
def resize_image (w h : ℕ) : (ℤ × ℤ) × Bool :=
  if resize_dims w h = ((w : ℤ), (h : ℤ)) then (((w : ℤ), (h : ℤ)), false)
  else (resize_dims w h, true)

/-- encode_header from the source.  The directives are emitted in fixed
order: reset (when the reset flag is set), position, size, the
degenerate geometry directive, clear (when the clear flag is set),
quantization announcement (when the quantization flag is set), and
translation mode (when the translation flag is set). -/
def encode_header (x y width height : ℤ)
    (clear translation reset quantization : Bool) :
    Except EncodeError (List ℕ) := do
  let n1 ← encode_normalized ((x : ℚ) / SCREEN_WIDTH)
  let n2 ← encode_normalized (((SCREEN_HEIGHT : ℚ) - height - y) / SCREEN_HEIGHT * (3 / 4))
  let n3 ← encode_normalized ((width : ℚ) / SCREEN_WIDTH)
  let n4 ← encode_normalized ((height : ℚ) / SCREEN_HEIGHT * (3 / 4))
  let n5 ← encode_normalized 0
  let n6 ← encode_normalized ((height : ℚ) / SCREEN_HEIGHT * (3 / 4))
  let i0 ← encode_integer 0 false
  let iq ← encode_integer 0x7F false
  return (if reset then RTD ++ encode_boolean true else [])
    ++ PDA_LOC ++ n1 ++ n2
    ++ PDA_PAS ++ n3 ++ n4
    ++ PDA_PPL ++ i0 ++ i0 ++ n5 ++ n6
    ++ (if clear then PDA_CPA ++ encode_boolean clear else [])
    ++ (if quantization then ETM ++ [0x44, 0x01, 1] ++ iq ++ [0x44, 0x01, 0x03] else [])
    ++ (if translation then TME ++ [0x44, 0x01, 0x02] else [])

/-- Chunking loop of split_chunks for a positive chunk size
csub + 1: successive slices of csub + 1 bytes, the last one flagged
final. -/
def chunks_go (csub : ℕ) (data : List ℕ) : List (List ℕ × Bool) :=
  if data.length ≤ csub + 1 then [(data, true)]
  else (data.take (csub + 1), false) :: chunks_go csub (data.drop (csub + 1))
termination_by data.length
decreasing_by
  simp only [List.length_drop]
  omega

/-- split_chunks from the source: a non-positive chunk size or empty
data yields the whole input as a single final chunk; otherwise the data
is cut into chunks of the given size, the last one flagged final. -/
def split_chunks (data : List ℕ) (chunk_size : ℤ) : List (List ℕ × Bool) :=
  if chunk_size ≤ 0 ∨ data = [] then [(data, true)]
  else chunks_go (chunk_size.toNat - 1) data

/-- translate_data from the source: bytes are taken in groups of three;
each group contributes one escape byte carrying marker bit 0x40 and the
top two bits of each group byte at bit offsets 4, 2, 0, followed by one
byte per group byte carrying marker bit 0x40 and its low six bits. -/
def translate_data : List ℕ → List ℕ
  | [] => []
  | b :: rest =>
    let chunk := b :: rest.take 2
    let esc := chunk.enum.foldl
      (fun a p => a ||| ((p.2 >>> 6) <<< (4 - 2 * p.1))) (1 <<< 6)
    esc :: ((chunk.map fun bt => (1 <<< 6) ||| (bt &&& 0x3F)) ++ translate_data (rest.drop 2))
termination_by l => l.length
decreasing_by
  simp only [List.length_drop, List.length_cons]
  omega

/-- Modelled from the spec: one source byte rebuilt from the escape
byte of its group (top two bits, at bit offset 4 - 2 * i for group index
i) and its own byte (low six bits). -/
def untranslate_byte (e i c : ℕ) : ℕ :=
  (((e >>> (4 - 2 * i)) &&& 3) <<< 6) ||| (c &&& 0x3F)

/-- Modelled from the spec: the inverse of the translation transform,
which is not part of the repository.  Each group is one escape byte
followed by up to three data bytes; a trailing group may be shorter. -/
def untranslate : List ℕ → List ℕ
  | [] => []
  | [_] => []
  | [e, c0] => [untranslate_byte e 0 c0]
  | [e, c0, c1] => [untranslate_byte e 0 c0, untranslate_byte e 1 c1]
  | e :: c0 :: c1 :: c2 :: rest =>
    untranslate_byte e 0 c0 :: untranslate_byte e 1 c1 :: untranslate_byte e 2 c2 ::
      untranslate rest

/-- One wire frame of encode_image: escape prefix ESC p, page and
instruction markers, the self-delimiting length of opcode plus chunk,
the opcode byte, then the chunk bytes. -/
def frame (code : ℕ) (chunk : List ℕ) : List ℕ :=
  [0x1B, 0x70, PM, PI] ++ encode_length (chunk.length + 1) ++ [code] ++ chunk

/-- encode_image from the source: header chunks (size chunk_size - 1)
become frames with opcodes 0x50 / 0x51, then image chunks (size
chunk_size, shrunk by the 3 / 4 factor when translation is active)
become frames with opcodes 0x52 / 0x53; translation, when active, is
applied to each image chunk before framing. -/
def encode_image (header image : List ℕ) (chunk_size : ℤ) (translation : Bool) :
    List (List ℕ) :=
  let headerFrames := (split_chunks header (chunk_size - 1)).map
    (fun cf => frame (if cf.2 then 0x51 else 0x50) cf.1)
  let imageChunkSize := if translation then ((chunk_size - 1) * 3).fdiv 4 + 1 else chunk_size
  let imageFrames := (split_chunks image imageChunkSize).map
    (fun cf => frame (if cf.2 then 0x53 else 0x52)
      (if translation then translate_data cf.1 else cf.1))
  headerFrames ++ imageFrames

/-- Modelled from the spec: helper of the frame reassembler; it skips
the base-32 digits of a length field, consuming bytes while continuation
bit 0x20 is set and one more byte for the final digit. -/
def strip_length : List ℕ → List ℕ
  | [] => []
  | b :: rest => if b / 32 % 2 = 1 then strip_length rest else rest

/-- Modelled from the spec: chunk payload of one frame, obtained by
ignoring the escape prefix, the length field, and the opcode byte. -/
def frame_payload (f : List ℕ) : List ℕ :=
  match f with
  | 0x1B :: 0x70 :: 0x23 :: 0x40 :: 0xFF :: rest => (strip_length rest).drop 1
  | _ => []

/-- Outcome record for one image of a conversion batch. -/
inductive ConvResult (ε β : Type) where
  | ok (artifact : β)
  | failed (err : ε)
deriving DecidableEq

/-- Batch loop of convert_images: each source item is processed inside a
try block; an exception is caught, logged as a failure record for that
item, and the loop continues with the remaining items. -/
def convert_images {α ε β : Type} (process : α → Except ε β) :
    List α → List (α × ConvResult ε β)
  | [] => []
  | p :: rest =>
    (p, match process p with
      | Except.ok b => ConvResult.ok b
      | Except.error e => ConvResult.failed e) :: convert_images process rest

/-! Bridging lemmas between the bitwise operations of the source and
ordinary arithmetic. -/

theorem and31_eq_mod (v : ℕ) : v &&& 31 = v % 32 := by
  have h := Nat.and_pow_two_sub_one_eq_mod v 5
  norm_num at h
  exact h

theorem lor_marker (a : ℕ) (ha : a < 32) : a ||| 64 = a + 64 := by
  interval_cases a <;> decide

theorem lor_marker_cont (a : ℕ) (ha : a < 32) : (a ||| 64) ||| 32 = a + 96 := by
  interval_cases a <;> decide

theorem encode_length_digits_zero (first : Bool) :
    encode_length_digits 0 first = [] := by
  rw [encode_length_digits]
  simp

theorem encode_length_digits_cons_true (v : ℕ) (hv : v ≠ 0) :
    encode_length_digits v true =
      (v % 32 + 64) :: encode_length_digits (v / 32) false := by
  rw [encode_length_digits]
  rw [dif_neg hv]
  have h64 : (1 <<< 6 : ℕ) = 64 := rfl
  have h5 : v >>> 5 = v / 32 := by
    rw [Nat.shiftRight_eq_div_pow]
  simp only [if_pos, and31_eq_mod, h64, h5]
  rw [lor_marker _ (Nat.mod_lt _ (by norm_num))]

theorem encode_length_digits_cons_false (v : ℕ) (hv : v ≠ 0) :
    encode_length_digits v false =
      (v % 32 + 96) :: encode_length_digits (v / 32) false := by
  rw [encode_length_digits]
  rw [dif_neg hv]
  have h64 : (1 <<< 6 : ℕ) = 64 := rfl
  have h32 : (1 <<< 5 : ℕ) = 32 := rfl
  have h5 : v >>> 5 = v / 32 := by
    rw [Nat.shiftRight_eq_div_pow]
  simp only [Bool.false_eq_true, if_false, and31_eq_mod, h64, h32, h5]
  rw [lor_marker_cont _ (Nat.mod_lt _ (by norm_num))]

theorem mem_digits_false (v : ℕ) :
    ∀ b ∈ encode_length_digits v false, b / 32 % 2 = 1 := by
  induction v using Nat.strong_induction_on with
  | _ v ih =>
    by_cases hv : v = 0
    · subst hv
      rw [encode_length_digits_zero]
      simp
    · rw [encode_length_digits_cons_false v hv]
      intro b hb
      rcases List.mem_cons.mp hb with h | h
      · subst h
        omega
      · exact ih (v / 32) (Nat.div_lt_self (Nat.pos_of_ne_zero hv) (by norm_num)) b h

theorem mem_digits_false_reverse (v : ℕ) :
    ∀ b ∈ (encode_length_digits v false).reverse, b / 32 % 2 = 1 :=
  fun b hb => mem_digits_false v b (List.mem_reverse.mp hb)

theorem decode_core_append_cont (A : List ℕ) :
    ∀ (rest : List ℕ) (acc : ℕ), (∀ a ∈ A, a / 32 % 2 = 1) →
      decode_length_core (A ++ rest) acc =
        decode_length_core rest (A.foldl (fun x b => x * 32 + b % 32) acc) := by
  induction A with
  | nil => intro rest acc _; rfl
  | cons a A ih =>
    intro rest acc hA
    simp only [List.cons_append, decode_length_core, List.foldl_cons]
    rw [if_pos (hA a (by simp))]
    exact ih rest _ (fun b hb => hA b (by simp [hb]))

theorem fold32_digits (v : ℕ) :
    ∀ acc : ℕ,
      (encode_length_digits v false).reverse.foldl (fun x b => x * 32 + b % 32) acc =
        acc * 32 ^ (encode_length_digits v false).length + v := by
  induction v using Nat.strong_induction_on with
  | _ v ih =>
    intro acc
    by_cases hv : v = 0
    · subst hv
      rw [encode_length_digits_zero]
      simp
    · rw [encode_length_digits_cons_false v hv]
      simp only [List.reverse_cons, List.foldl_append,
        List.foldl_cons, List.foldl_nil, List.length_cons]
      rw [ih (v / 32) (Nat.div_lt_self (Nat.pos_of_ne_zero hv) (by norm_num)) acc]
      rw [pow_succ, ← mul_assoc]
      generalize acc * 32 ^ (encode_length_digits (v / 32) false).length = Q
      omega

theorem encode_length_eq_cons (v : ℕ) (hv : v ≠ 0) :
    encode_length v =
      0xFF :: ((encode_length_digits (v / 32) false).reverse ++ [v % 32 + 64]) := by
  rw [encode_length, encode_length_digits_cons_true v hv]
  simp

/-- Claim C1: for every non-negative integer, decoding the length
encoding (skip the 0xFF sentinel, then accumulate 5-bit base-32 digits
most significant first while continuation bit 0x20 is set, including the
final digit without it) returns the value, and zero encodes as the
single sentinel byte 0xFF. -/
theorem length_roundtrip :
    (∀ v : ℕ, decode_length (encode_length v) = some v) ∧
    encode_length 0 = [0xFF] := by
  have hzero : encode_length 0 = [0xFF] := by
    rw [encode_length, encode_length_digits_zero]
    rfl
  refine ⟨fun v => ?_, hzero⟩
  by_cases hv : v = 0
  · subst hv
    rw [hzero]
    rfl
  · rw [encode_length_eq_cons v hv]
    show some (decode_length_core _ 0) = some v
    congr 1
    rw [decode_core_append_cont ((encode_length_digits (v / 32) false).reverse)
      [v % 32 + 64] 0 (mem_digits_false_reverse (v / 32))]
    rw [fold32_digits (v / 32) 0]
    simp only [zero_mul, zero_add]
    simp only [decode_length_core]
    rw [if_neg (by omega)]
    omega

/-! Frame chunking lemmas (claims C5 and C6). -/

theorem chunks_go_ne_nil (csub : ℕ) (d : List ℕ) : chunks_go csub d ≠ [] := by
  rw [chunks_go]
  split <;> simp

theorem chunks_go_flatten_aux (csub : ℕ) :
    ∀ (n : ℕ) (d : List ℕ), d.length ≤ n →
      ((chunks_go csub d).map Prod.fst).flatten = d := by
  intro n
  induction n with
  | zero =>
    intro d hd
    have hnil : d = [] := by
      cases d with
      | nil => rfl
      | cons a l => simp at hd
    subst hnil
    rw [chunks_go]
    simp
  | succ n ih =>
    intro d hd
    rw [chunks_go]
    split
    · simp
    · rename_i hlen
      push_neg at hlen
      simp only [List.map_cons, List.flatten_cons]
      rw [ih (d.drop (csub + 1)) (by simp only [List.length_drop]; omega)]
      exact List.take_append_drop _ d

theorem chunks_go_flatten (csub : ℕ) (d : List ℕ) :
    ((chunks_go csub d).map Prod.fst).flatten = d :=
  chunks_go_flatten_aux csub d.length d le_rfl

theorem chunks_go_chunk_le_aux (csub : ℕ) :
    ∀ (n : ℕ) (d : List ℕ), d.length ≤ n →
      ∀ cf ∈ chunks_go csub d, cf.1.length ≤ csub + 1 := by
  intro n
  induction n with
  | zero =>
    intro d hd cf hcf
    rw [chunks_go] at hcf
    rw [if_pos (by omega)] at hcf
    rcases List.mem_singleton.mp hcf with rfl
    show d.length ≤ csub + 1
    omega
  | succ n ih =>
    intro d hd cf hcf
    rw [chunks_go] at hcf
    split at hcf
    · rename_i hlen
      rcases List.mem_singleton.mp hcf with rfl
      exact hlen
    · rename_i hlen
      push_neg at hlen
      rcases List.mem_cons.mp hcf with rfl | h
      · simp only [List.length_take]
        omega
      · exact ih (d.drop (csub + 1)) (by simp only [List.length_drop]; omega) cf h

theorem chunks_go_chunk_le (csub : ℕ) (d : List ℕ) :
    ∀ cf ∈ chunks_go csub d, cf.1.length ≤ csub + 1 :=
  chunks_go_chunk_le_aux csub d.length d le_rfl

theorem chunks_go_final_iff_aux (csub : ℕ) :
    ∀ (n : ℕ) (d : List ℕ), d.length ≤ n →
      ∀ (i : ℕ) (cf : List ℕ × Bool), (chunks_go csub d)[i]? = some cf →
        (cf.2 = true ↔ i + 1 = (chunks_go csub d).length) := by
  intro n
  induction n with
  | zero =>
    intro d hd i cf hcf
    rw [chunks_go] at hcf ⊢
    rw [if_pos (by omega)] at hcf ⊢
    cases i with
    | zero =>
      simp only [List.getElem?_cons_zero, Option.some.injEq] at hcf
      subst hcf
      simp
    | succ i =>
      simp at hcf
  | succ n ih =>
    intro d hd i cf hcf
    rw [chunks_go] at hcf ⊢
    split at hcf
    · rename_i hlen
      rw [if_pos hlen]
      cases i with
      | zero =>
        simp only [List.getElem?_cons_zero, Option.some.injEq] at hcf
        subst hcf
        simp
      | succ i =>
        simp at hcf
    · rename_i hlen
      rw [if_neg hlen]
      push_neg at hlen
      cases i with
      | zero =>
        simp only [List.getElem?_cons_zero, Option.some.injEq] at hcf
        subst hcf
        have hne := chunks_go_ne_nil csub (d.drop (csub + 1))
        simp only [List.length_cons]
        constructor
        · intro h
          simp at h
        · intro h
          exfalso
          have hlen0 : (chunks_go csub (d.drop (csub + 1))).length = 0 := by omega
          exact hne (List.length_eq_zero.mp hlen0)
      | succ i =>
        simp only [List.getElem?_cons_succ] at hcf
        simp only [List.length_cons]
        rw [ih (d.drop (csub + 1)) (by simp only [List.length_drop]; omega) i cf hcf]
        omega

theorem chunks_go_final_iff (csub : ℕ) (d : List ℕ) :
    ∀ (i : ℕ) (cf : List ℕ × Bool), (chunks_go csub d)[i]? = some cf →
      (cf.2 = true ↔ i + 1 = (chunks_go csub d).length) :=
  chunks_go_final_iff_aux csub d.length d le_rfl

theorem split_chunks_flatten (d : List ℕ) (c : ℤ) :
    ((split_chunks d c).map Prod.fst).flatten = d := by
  unfold split_chunks
  split
  · simp
  · exact chunks_go_flatten _ d

theorem split_chunks_chunk_le (d : List ℕ) (c : ℤ) (hc : 1 ≤ c) :
    ∀ cf ∈ split_chunks d c, (cf.1.length : ℤ) ≤ c := by
  intro cf hcf
  unfold split_chunks at hcf
  split at hcf
  · rename_i hguard
    rcases List.mem_singleton.mp hcf with rfl
    show ((d.length : ℤ)) ≤ c
    rcases hguard with hg | hg
    · omega
    · subst hg
      simp
      omega
  · have h := chunks_go_chunk_le _ d cf hcf
    omega

theorem split_chunks_final_iff (d : List ℕ) (c : ℤ) :
    ∀ (i : ℕ) (cf : List ℕ × Bool), (split_chunks d c)[i]? = some cf →
      (cf.2 = true ↔ i + 1 = (split_chunks d c).length) := by
  intro i cf hcf
  unfold split_chunks at hcf ⊢
  split at hcf
  · rw [if_pos (by assumption)]
    cases i with
    | zero =>
      simp only [List.getElem?_cons_zero, Option.some.injEq] at hcf
      subst hcf
      simp
    | succ i =>
      simp at hcf
  · rw [if_neg (by assumption)]
    exact chunks_go_final_iff _ d i cf hcf

theorem strip_length_append_cont (A : List ℕ) :
    ∀ rest : List ℕ, (∀ a ∈ A, a / 32 % 2 = 1) →
      strip_length (A ++ rest) = strip_length rest := by
  induction A with
  | nil => intro rest _; rfl
  | cons a A ih =>
    intro rest hA
    simp only [List.cons_append, strip_length]
    rw [if_pos (hA a (by simp))]
    exact ih rest (fun b hb => hA b (by simp [hb]))

theorem frame_payload_frame (code : ℕ) (chunk : List ℕ) :
    frame_payload (frame code chunk) = chunk := by
  have hne : chunk.length + 1 ≠ 0 := by omega
  rw [frame, encode_length_eq_cons _ hne]
  show frame_payload
      (0x1B :: 0x70 :: 0x23 :: 0x40 :: 0xFF ::
        ((((encode_length_digits ((chunk.length + 1) / 32) false).reverse ++
          [(chunk.length + 1) % 32 + 64]) ++ [code]) ++ chunk)) = chunk
  rw [frame_payload]
  rw [List.append_assoc, List.append_assoc]
  rw [strip_length_append_cont _ _ (mem_digits_false_reverse _)]
  simp only [List.singleton_append, strip_length]
  rw [if_neg (by omega)]
  rfl

/-- Claim C6: reassembling the frames of encode_image with translation
disabled, by concatenating each frame chunk payload in frame order
(ignoring the escape prefix, the length field, and the opcode),
reproduces header followed by image payload; in particular any byte
buffer round-trips for every chunk size of at least 1, including the
empty buffer. -/
theorem frames_reassemble (header image : List ℕ) (cs : ℤ) (hcs : 1 ≤ cs) :
    ((encode_image header image cs false).map frame_payload).flatten =
      header ++ image := by
  rw [encode_image]
  simp only [Bool.false_eq_true, if_false, List.map_append, List.map_map,
    List.flatten_append]
  have h1 : ∀ d : List ℕ, ∀ c : ℤ,
      ((split_chunks d c).map
        (frame_payload ∘ fun cf => frame (if cf.2 then (0x51 : ℕ) else 0x50) cf.1)).flatten
        = d := by
    intro d c
    have : ((split_chunks d c).map
        (frame_payload ∘ fun cf => frame (if cf.2 then (0x51 : ℕ) else 0x50) cf.1)) =
        (split_chunks d c).map Prod.fst := by
      apply List.map_congr_left
      intro cf _
      simp only [Function.comp_apply, frame_payload_frame]
    rw [this, split_chunks_flatten]
  have h2 : ∀ d : List ℕ, ∀ c : ℤ,
      ((split_chunks d c).map
        (frame_payload ∘ fun cf => frame (if cf.2 then (0x53 : ℕ) else 0x52) cf.1)).flatten
        = d := by
    intro d c
    have : ((split_chunks d c).map
        (frame_payload ∘ fun cf => frame (if cf.2 then (0x53 : ℕ) else 0x52) cf.1)) =
        (split_chunks d c).map Prod.fst := by
      apply List.map_congr_left
      intro cf _
      simp only [Function.comp_apply, frame_payload_frame]
    rw [this, split_chunks_flatten]
  rw [h1 header (cs - 1), h2 image cs]

/-- Witness for frames_reassemble at a concrete header, image and chunk
size. -/
theorem frames_reassemble_witness :
    ((encode_image [1, 2] [3, 4, 5, 6] 3 false).map frame_payload).flatten =
      [1, 2] ++ [3, 4, 5, 6] :=
  frames_reassemble [1, 2] [3, 4, 5, 6] 3 (by norm_num)

/-- Claim C5, amended to chunk sizes of at least 2: the frame stream of
encode_image with translation disabled is exactly the header chunks
(each of at most chunk_size - 1 bytes) framed with opcodes 0x50 / 0x51,
followed by the payload chunks framed with opcodes 0x52 / 0x53, each
frame of the form ESC, p, page marker, instruction marker, length of
chunk plus one, opcode, chunk; in both segments exactly the last chunk
carries the final flag, and all header frames precede all payload
frames. -/
theorem encode_image_protocol (header image : List ℕ) (cs : ℤ) (hcs : 2 ≤ cs) :
    encode_image header image cs false =
      (split_chunks header (cs - 1)).map
          (fun cf => frame (if cf.2 then 0x51 else 0x50) cf.1)
        ++ (split_chunks image cs).map
          (fun cf => frame (if cf.2 then 0x53 else 0x52) cf.1) ∧
    (∀ cf ∈ split_chunks header (cs - 1), (cf.1.length : ℤ) ≤ cs - 1) ∧
    (∀ (i : ℕ) (cf : List ℕ × Bool), (split_chunks header (cs - 1))[i]? = some cf →
      (cf.2 = true ↔ i + 1 = (split_chunks header (cs - 1)).length)) ∧
    (∀ (i : ℕ) (cf : List ℕ × Bool), (split_chunks image cs)[i]? = some cf →
      (cf.2 = true ↔ i + 1 = (split_chunks image cs).length)) := by
  refine ⟨?_, split_chunks_chunk_le header (cs - 1) (by omega),
    split_chunks_final_iff header (cs - 1), split_chunks_final_iff image cs⟩
  unfold encode_image
  simp only [Bool.false_eq_true, if_false]

/-- Witness for encode_image_protocol at a concrete header, image and
chunk size. -/
theorem encode_image_protocol_witness :
    encode_image [1, 2, 3] [4, 5] 2 false =
      (split_chunks [1, 2, 3] (2 - 1)).map
          (fun cf => frame (if cf.2 then 0x51 else 0x50) cf.1)
        ++ (split_chunks [4, 5] 2).map
          (fun cf => frame (if cf.2 then 0x53 else 0x52) cf.1) ∧
    (∀ cf ∈ split_chunks [1, 2, 3] ((2 : ℤ) - 1), (cf.1.length : ℤ) ≤ 2 - 1) ∧
    (∀ (i : ℕ) (cf : List ℕ × Bool), (split_chunks [1, 2, 3] ((2 : ℤ) - 1))[i]? = some cf →
      (cf.2 = true ↔ i + 1 = (split_chunks [1, 2, 3] ((2 : ℤ) - 1)).length)) ∧
    (∀ (i : ℕ) (cf : List ℕ × Bool), (split_chunks [4, 5] (2 : ℤ))[i]? = some cf →
      (cf.2 = true ↔ i + 1 = (split_chunks [4, 5] (2 : ℤ)).length)) :=
  encode_image_protocol [1, 2, 3] [4, 5] 2 (by norm_num)

/-- Counterexample to claim C5 as stated for arbitrary chunk sizes: at
chunk size 1 the header is not split into chunks of at most
chunk_size - 1 = 0 bytes; the whole 2-byte header is emitted as a single
chunk. -/
theorem encode_image_small_chunk_cex :
    encode_image [0, 0] [] 1 false = [frame 0x51 [0, 0], frame 0x53 []] ∧
    ¬ ((([0, 0] : List ℕ).length : ℤ) ≤ 1 - 1) := by
  constructor
  · unfold encode_image split_chunks
    norm_num
  · norm_num

/-! Integer encoding lemmas (claim C2). -/

theorem le_two_pow_pred (k : ℕ) (hk : 0 < k) : k ≤ 2 ^ (k - 1) := by
  have h := Nat.lt_two_pow (k - 1)
  omega

theorem fits_of_large (n : ℤ) (nbits : ℕ) (h0 : 0 < nbits)
    (h : n.natAbs + 1 ≤ nbits) : fits n nbits := by
  have h1 : n.natAbs < 2 ^ (nbits - 1) := by
    have h2 := le_two_pow_pred nbits h0
    omega
  have h3 : ((n.natAbs : ℤ)) < (2 : ℤ) ^ (nbits - 1) := by
    exact_mod_cast h1
  constructor
  · omega
  · omega

theorem int_nbits_fuel_spec (n : ℤ) :
    ∀ (fuel nbits : ℕ), 0 < nbits → n.natAbs + 1 ≤ nbits + 7 * fuel →
      fits n (int_nbits_fuel fuel n nbits) ∧
      nbits ≤ int_nbits_fuel fuel n nbits ∧
      (int_nbits_fuel fuel n nbits - nbits) % 7 = 0 ∧
      ∀ m, nbits ≤ m → (m - nbits) % 7 = 0 → fits n m →
        int_nbits_fuel fuel n nbits ≤ m := by
  intro fuel
  induction fuel with
  | zero =>
    intro nbits h0 hs
    simp only [int_nbits_fuel]
    exact ⟨fits_of_large n nbits h0 (by omega), le_rfl, by omega, fun m hm _ _ => hm⟩
  | succ fuel ih =>
    intro nbits h0 hs
    rw [int_nbits_fuel]
    by_cases hf : fits n nbits
    · rw [if_pos hf]
      exact ⟨hf, le_rfl, by omega, fun m hm _ _ => hm⟩
    · rw [if_neg hf]
      obtain ⟨ha, hb, hc, hd⟩ := ih (nbits + 7) (by omega) (by omega)
      refine ⟨ha, by omega, by omega, ?_⟩
      intro m hm hm7 hfm
      have hm1 : m ≠ nbits := fun he => hf (he ▸ hfm)
      exact hd m (by omega) (by omega) hfm

theorem int_nbits_spec (n : ℤ) :
    fits n (int_nbits n) ∧ 7 ≤ int_nbits n ∧ int_nbits n % 7 = 0 ∧
    ∀ m : ℕ, 0 < m → m % 7 = 0 → fits n m → int_nbits n ≤ m := by
  unfold int_nbits
  obtain ⟨ha, hb, hc, hd⟩ :=
    int_nbits_fuel_spec n (n.natAbs + 1) 7 (by norm_num) (by omega)
  refine ⟨ha, hb, by omega, ?_⟩
  intro m h0 h7 hfm
  exact hd m (by omega) (by omega) hfm

theorem digits7_div_form (cnt u : ℕ) :
    digits7 cnt u = (List.range cnt).reverse.map (fun j => u / 128 ^ j % 128) := by
  unfold digits7
  apply List.map_congr_left
  intro j _
  rw [Nat.shiftRight_eq_div_pow]
  rw [show ((2 : ℕ) ^ (7 * j)) = 128 ^ j by rw [pow_mul]; norm_num]
  have h := Nat.and_pow_two_sub_one_eq_mod (u / 128 ^ j) 7
  norm_num at h
  exact h

theorem digits7_length (cnt u : ℕ) : (digits7 cnt u).length = cnt := by
  simp [digits7]

theorem fold7_div_form (cnt : ℕ) :
    ∀ u acc : ℕ,
      ((List.range cnt).reverse.map (fun j => u / 128 ^ j % 128)).foldl
        (fun a b => a * 128 + b % 128) acc = acc * 128 ^ cnt + u % 128 ^ cnt := by
  induction cnt with
  | zero =>
    intro u acc
    simp [Nat.mod_one]
  | succ cnt ih =>
    intro u acc
    rw [List.range_succ]
    simp only [List.reverse_append, List.reverse_singleton, List.singleton_append,
      List.map_cons, List.foldl_cons]
    rw [ih u (acc * 128 + u / 128 ^ cnt % 128 % 128)]
    have hd : u / 128 ^ cnt % 128 % 128 = u / 128 ^ cnt % 128 :=
      Nat.mod_mod_of_dvd _ dvd_rfl
    rw [hd, pow_succ, Nat.mod_mul]
    ring

theorem fold7_digits7 (cnt u acc : ℕ) :
    (digits7 cnt u).foldl (fun a b => a * 128 + b % 128) acc =
      acc * 128 ^ cnt + u % 128 ^ cnt := by
  rw [digits7_div_form]
  exact fold7_div_form cnt u acc

theorem encode_integer_ok (n : ℤ) (h : int_nbits n / 7 < 256) :
    encode_integer n false =
      Except.ok ([0x40, int_nbits n / 7] ++
        digits7 (int_nbits n / 7) (if n < 0 then n + 2 ^ int_nbits n else n).toNat) := by
  simp only [encode_integer, Bool.false_eq_true, if_false, if_pos h]

/-- Claim C2, amended to the integers whose group count fits the single
count byte (all n with -(2 ^ 1784) ≤ n < 2 ^ 1784): the non-raw integer
encoding is the 0x40 tag, the group count, and the big-endian 7-bit
digit groups of the two-complement value; decoding returns n, and the
chosen width int_nbits n is the smallest positive multiple of 7 such
that n lies in [-2 ^ (nbits - 1), 2 ^ (nbits - 1)). -/
theorem integer_roundtrip (n : ℤ) (h1 : -(2 ^ 1784) ≤ n) (h2 : n < 2 ^ 1784) :
    ∃ l : List ℕ, encode_integer n false = Except.ok l ∧
      decode_integer l = some n ∧
      l.length = 2 + int_nbits n / 7 ∧
      l[1]? = some (int_nbits n / 7) ∧
      fits n (int_nbits n) ∧
      int_nbits n % 7 = 0 ∧
      (∀ m : ℕ, 0 < m → m % 7 = 0 → fits n m → int_nbits n ≤ m) := by
  obtain ⟨hfits, h7le, h7mod, hmin⟩ := int_nbits_spec n
  have hf1785 : fits n 1785 := by
    constructor
    · simpa using h1
    · simpa using h2
  have hk1785 : int_nbits n ≤ 1785 := hmin 1785 (by norm_num) (by norm_num) hf1785
  have hcnt : int_nbits n / 7 < 256 := by omega
  have h7cnt : 7 * (int_nbits n / 7) = int_nbits n := by omega
  refine ⟨_, encode_integer_ok n hcnt, ?_, ?_, ?_, hfits, by omega, hmin⟩
  · -- decoding
    have hcast : ((2 ^ int_nbits n : ℕ) : ℤ) = (2 : ℤ) ^ int_nbits n := by
      push_cast
      ring
    have hpow128 : (128 : ℕ) ^ (int_nbits n / 7) = 2 ^ int_nbits n := by
      rw [show (128 : ℕ) = 2 ^ 7 by norm_num, ← pow_mul, h7cnt]
    have hhalf : (2 : ℤ) ^ int_nbits n = 2 * 2 ^ (int_nbits n - 1) := by
      rw [← pow_succ']
      congr 1
      omega
    have hblt : (if n < 0 then n + 2 ^ int_nbits n else n) < 2 ^ int_nbits n := by
      split_ifs with hneg
      · omega
      · have := hfits.2
        omega
    have hb0 : 0 ≤ (if n < 0 then n + 2 ^ int_nbits n else n) := by
      split_ifs with hneg
      · have := hfits.1
        omega
      · omega
    have hbnat : (if n < 0 then n + 2 ^ int_nbits n else n).toNat < 2 ^ int_nbits n := by
      omega
    show decode_integer
      (0x40 :: (int_nbits n / 7) ::
        digits7 (int_nbits n / 7) (if n < 0 then n + 2 ^ int_nbits n else n).toNat) = some n
    rw [decode_integer]
    rw [if_pos (digits7_length _ _)]
    rw [fold7_digits7]
    rw [hpow128]
    rw [Nat.mod_eq_of_lt hbnat]
    simp only [zero_mul, zero_add, h7cnt]
    have hge := hfits.1
    have hlt := hfits.2
    by_cases hneg : n < 0
    · simp only [if_pos hneg]
      rw [if_neg (show ¬ (((n + 2 ^ int_nbits n).toNat : ℤ) < 2 ^ (int_nbits n - 1)) by
        omega)]
      congr 1
      omega
    · simp only [if_neg hneg]
      rw [if_pos (show ((n.toNat : ℤ)) < 2 ^ (int_nbits n - 1) by omega)]
      congr 1
      omega
  · simp only [List.length_append, List.length_cons, List.length_nil, digits7_length]
  · simp

/-- Witness for integer_roundtrip at n = -1000. -/
theorem integer_roundtrip_witness :
    (-(2 ^ 1784) ≤ (-1000 : ℤ) ∧ (-1000 : ℤ) < 2 ^ 1784) ∧
    (∃ l : List ℕ, encode_integer (-1000) false = Except.ok l ∧
      decode_integer l = some (-1000) ∧
      l.length = 2 + int_nbits (-1000) / 7 ∧
      l[1]? = some (int_nbits (-1000) / 7) ∧
      fits (-1000) (int_nbits (-1000)) ∧
      int_nbits (-1000) % 7 = 0 ∧
      (∀ m : ℕ, 0 < m → m % 7 = 0 → fits (-1000) m → int_nbits (-1000) ≤ m)) :=
  ⟨⟨by norm_num, by norm_num⟩, integer_roundtrip (-1000) (by norm_num) (by norm_num)⟩

/-- Counterexample to claim C2 as stated for every integer: at
n = 2 ^ 1784 the required group count is 256, which does not fit the
single count byte of the non-raw header (bytes([256]) raises in the
source), so the encoder produces no byte string at all. -/
theorem integer_encode_overflow_cex :
    encode_integer (2 ^ 1784) false = Except.error EncodeError.byteRange := by
  have hnb : int_nbits (2 ^ 1784 : ℤ) = 1792 := by
    obtain ⟨hfits, h7le, h7mod, hmin⟩ := int_nbits_spec (2 ^ 1784 : ℤ)
    have hpos : (0 : ℤ) ≤ 2 ^ 1784 := by positivity
    have hf : fits (2 ^ 1784 : ℤ) 1792 := by
      constructor
      · have hpos2 : (0 : ℤ) ≤ 2 ^ (1792 - 1) := by positivity
        omega
      · show (2 : ℤ) ^ 1784 < 2 ^ (1792 - 1)
        norm_num
    have hle : int_nbits (2 ^ 1784 : ℤ) ≤ 1792 := hmin 1792 (by norm_num) (by norm_num) hf
    have hgt : ¬ int_nbits (2 ^ 1784 : ℤ) ≤ 1785 := by
      intro hle2
      have hk := hfits.2
      have hmono : (2 : ℤ) ^ (int_nbits (2 ^ 1784 : ℤ) - 1) ≤ 2 ^ 1784 := by
        apply pow_le_pow_right (by norm_num)
        omega
      omega
    omega
  simp only [encode_integer, Bool.false_eq_true, if_false, hnb]
  norm_num

/-! Rounding lemmas and the normalized-fraction encoder (claim C3). -/

theorem pythonRound_sub_abs_le (q : ℚ) : |(pythonRound q : ℚ) - q| ≤ 1 / 2 := by
  unfold pythonRound
  have hfl : (⌊q⌋ : ℚ) ≤ q := Int.floor_le q
  have hfu : q < ⌊q⌋ + 1 := Int.lt_floor_add_one q
  split_ifs with h1 h2 h3
  · rw [abs_le]
    constructor <;> linarith
  · rw [abs_le]
    push_cast
    constructor <;> linarith
  · rw [abs_le]
    constructor <;> linarith [le_of_not_lt h1, le_of_not_lt h2]
  · rw [abs_le]
    push_cast
    constructor <;> linarith [le_of_not_lt h1, le_of_not_lt h2]

theorem pythonRound_le_of_le (q : ℚ) (n : ℤ) (h : q ≤ (n : ℚ)) : pythonRound q ≤ n := by
  unfold pythonRound
  have hf : ⌊q⌋ ≤ n := by
    have hmono := Int.floor_le_floor h
    rwa [Int.floor_intCast] at hmono
  have hfl : (⌊q⌋ : ℚ) ≤ q := Int.floor_le q
  split_ifs with h1 h2 h3
  · exact hf
  · have hq : (⌊q⌋ : ℚ) < (n : ℚ) := by linarith
    have hqz : ⌊q⌋ < n := by exact_mod_cast hq
    omega
  · exact hf
  · have hq : (⌊q⌋ : ℚ) < (n : ℚ) := by
      linarith [le_of_not_lt h1, le_of_not_lt h2]
    have hqz : ⌊q⌋ < n := by exact_mod_cast hq
    omega

theorem le_pythonRound_of_le (q : ℚ) (n : ℤ) (h : (n : ℚ) ≤ q) : n ≤ pythonRound q := by
  unfold pythonRound
  have hf : n ≤ ⌊q⌋ := Int.le_floor.mpr h
  split_ifs <;> omega

theorem normalized_payload_def (x : ℚ) :
    normalized_payload x =
      0x42 :: 4 :: digits7 4 ((if pythonRound (x * 2 ^ 26) < 0
        then pythonRound (x * 2 ^ 26) + 2 ^ 28 - 2 ^ 26
        else pythonRound (x * 2 ^ 26)).toNat) := by
  simp only [normalized_payload]

theorem decode_digits7_28 (u : ℕ) (hu : u < 2 ^ 28) (v : ℤ)
    (hv : v = if 2 ^ 27 ≤ u then (u : ℤ) - (2 ^ 28 - 2 ^ 26) else (u : ℤ)) :
    decode_normalized (0x42 :: 4 :: digits7 4 u) = some ((v : ℚ) / 2 ^ 26) := by
  subst hv
  simp only [decode_normalized]
  rw [if_pos (And.intro trivial (digits7_length 4 u))]
  rw [fold7_digits7]
  have h1284 : (128 : ℕ) ^ 4 = 2 ^ 28 := by norm_num
  rw [h1284, Nat.mod_eq_of_lt hu]
  norm_num

/-- Claim C3: for every x in [-1, 1] the normalized encoder succeeds
with exactly tag 0x42, byte count 4, and the 4 big-endian 7-bit digit
groups of round(x * 2 ^ 26), biased by 2 ^ 28 - 2 ^ 26 when negative,
and decoding recovers a value within 2 ^ -26 of x; for every x outside
[-1, 1] it fails with a domain error and produces no bytes. -/
theorem normalized_spec (x : ℚ) :
    ((-1 ≤ x ∧ x ≤ 1) →
      encode_normalized x = Except.ok (normalized_payload x) ∧
      ∃ u : ℕ, u < 2 ^ 28 ∧
        (u : ℤ) = (if pythonRound (x * 2 ^ 26) < 0
          then pythonRound (x * 2 ^ 26) + 2 ^ 28 - 2 ^ 26
          else pythonRound (x * 2 ^ 26)) ∧
        normalized_payload x = 0x42 :: 4 :: digits7 4 u ∧
        ∃ y : ℚ, decode_normalized (normalized_payload x) = some y ∧
          |y - x| ≤ 1 / 2 ^ 26) ∧
    (¬(-1 ≤ x ∧ x ≤ 1) → encode_normalized x = Except.error EncodeError.domainError) := by
  constructor
  · intro hx
    have henc : encode_normalized x = Except.ok (normalized_payload x) := by
      unfold encode_normalized
      rw [if_pos hx]
    have hub : pythonRound (x * 2 ^ 26) ≤ 2 ^ 26 := by
      apply pythonRound_le_of_le
      push_cast
      nlinarith [hx.2]
    have hlb : -(2 ^ 26) ≤ pythonRound (x * 2 ^ 26) := by
      apply le_pythonRound_of_le
      push_cast
      nlinarith [hx.1]
    set v0 := pythonRound (x * 2 ^ 26) with hv0def
    set b : ℤ := if v0 < 0 then v0 + 2 ^ 28 - 2 ^ 26 else v0 with hbdef
    have hp28 : (2 : ℤ) ^ 28 = 4 * 2 ^ 26 := by norm_num
    have hp27 : (2 : ℤ) ^ 27 = 2 * 2 ^ 26 := by norm_num
    have hc28 : ((2 ^ 28 : ℕ) : ℤ) = (2 : ℤ) ^ 28 := by push_cast
    have hc27 : ((2 ^ 27 : ℕ) : ℤ) = (2 : ℤ) ^ 27 := by push_cast
    have hb0 : 0 ≤ b := by
      by_cases hv : v0 < 0
      · rw [hbdef, if_pos hv]
        omega
      · rw [hbdef, if_neg hv]
        omega
    have hblt : b < 2 ^ 28 := by
      by_cases hv : v0 < 0
      · rw [hbdef, if_pos hv]
        omega
      · rw [hbdef, if_neg hv]
        omega
    have hbnat : (b.toNat : ℤ) = b := Int.toNat_of_nonneg hb0
    have hunat : b.toNat < 2 ^ 28 := by omega
    have hpay : normalized_payload x = 0x42 :: 4 :: digits7 4 b.toNat := by
      rw [normalized_payload_def x, ← hv0def, ← hbdef]
    refine ⟨henc, b.toNat, hunat, by rw [hbnat], hpay, ?_⟩
    have hveq : (if 2 ^ 27 ≤ b.toNat then (b.toNat : ℤ) - (2 ^ 28 - 2 ^ 26)
        else (b.toNat : ℤ)) = v0 := by
      by_cases hv : v0 < 0
      · have hbval : b = v0 + 2 ^ 28 - 2 ^ 26 := by rw [hbdef, if_pos hv]
        rw [if_pos (by omega)]
        omega
      · have hbval : b = v0 := by rw [hbdef, if_neg hv]
        rw [if_neg (by omega)]
        omega
    have hdec := decode_digits7_28 b.toNat hunat v0 hveq.symm
    refine ⟨(v0 : ℚ) / 2 ^ 26, by rw [hpay]; exact hdec, ?_⟩
    have habs := pythonRound_sub_abs_le (x * 2 ^ 26)
    rw [← hv0def] at habs
    have heq : (v0 : ℚ) / 2 ^ 26 - x = ((v0 : ℚ) - x * 2 ^ 26) / 2 ^ 26 := by ring
    rw [heq, abs_div, abs_of_pos (by positivity : (0 : ℚ) < 2 ^ 26)]
    calc |(v0 : ℚ) - x * 2 ^ 26| / 2 ^ 26
        ≤ (1 / 2) / 2 ^ 26 := by
          apply (div_le_div_right (by positivity : (0 : ℚ) < 2 ^ 26)).mpr habs
      _ ≤ 1 / 2 ^ 26 := by norm_num
  · intro hx
    unfold encode_normalized
    rw [if_neg hx]

/-! Translation transform lemmas (claims C7 and C10). -/

theorem shiftr6_eq (c : ℕ) : c >>> 6 = c / 64 := by
  rw [Nat.shiftRight_eq_div_pow]

theorem and63_eq (c : ℕ) : c &&& 63 = c % 64 := by
  have h := Nat.and_pow_two_sub_one_eq_mod c 6
  norm_num at h
  exact h

theorem and3_eq (c : ℕ) : c &&& 3 = c % 4 := by
  have h := Nat.and_pow_two_sub_one_eq_mod c 2
  norm_num at h
  exact h

theorem lor_mark (l : ℕ) (hl : l < 64) : 64 ||| l = 64 + l := by
  interval_cases l <;> decide

theorem lor_esc1 (a : ℕ) (ha : a < 4) : 64 ||| (a <<< 4) = 64 + 16 * a := by
  interval_cases a <;> decide

theorem lor_esc2 (a b : ℕ) (ha : a < 4) (hb : b < 4) :
    (64 ||| (a <<< 4)) ||| (b <<< 2) = 64 + 16 * a + 4 * b := by
  interval_cases a <;> interval_cases b <;> decide

theorem lor_esc3 (a b c : ℕ) (ha : a < 4) (hb : b < 4) (hc : c < 4) :
    ((64 ||| (a <<< 4)) ||| (b <<< 2)) ||| c = 64 + 16 * a + 4 * b + c := by
  interval_cases a <;> interval_cases b <;> interval_cases c <;> decide

theorem lor_byte (a l : ℕ) (ha : a < 4) (hl : l < 64) : (a <<< 6) ||| l = 64 * a + l := by
  interval_cases a <;> interval_cases l <;> decide

theorem untranslate_byte_arith (e i c : ℕ) :
    untranslate_byte e i c = 64 * (e / 2 ^ (4 - 2 * i) % 4) + c % 64 := by
  unfold untranslate_byte
  rw [Nat.shiftRight_eq_div_pow, and3_eq, and63_eq]
  exact lor_byte _ _ (Nat.mod_lt _ (by norm_num)) (Nat.mod_lt _ (by norm_num))

theorem translate_one (b : ℕ) (hb : b < 256) :
    translate_data [b] = [64 + 16 * (b / 64), 64 + b % 64] := by
  simp only [translate_data, List.take_nil, List.drop_nil, List.enum, List.enumFrom,
    List.foldl_cons, List.foldl_nil, List.map_cons, List.map_nil, List.append_nil,
    Nat.mul_zero, Nat.sub_zero, Nat.shiftLeft_zero]
  rw [shiftr6_eq, and63_eq]
  rw [show (1 <<< 6 : ℕ) = 64 from rfl]
  rw [lor_esc1 (b / 64) (by omega), lor_mark (b % 64) (by omega)]

theorem translate_two (b c1 : ℕ) (hb : b < 256) (hc1 : c1 < 256) :
    translate_data [b, c1] =
      [64 + 16 * (b / 64) + 4 * (c1 / 64), 64 + b % 64, 64 + c1 % 64] := by
  simp only [translate_data, List.take_nil, List.drop_nil, List.enum, List.enumFrom,
    List.foldl_cons, List.foldl_nil, List.map_cons, List.map_nil, List.append_nil,
    List.take_succ_cons, List.drop_succ_cons, Nat.mul_zero, Nat.sub_zero, Nat.mul_one,
    Nat.shiftLeft_zero]
  rw [shiftr6_eq, shiftr6_eq, and63_eq, and63_eq]
  rw [show (1 <<< 6 : ℕ) = 64 from rfl]
  rw [show (4 - 2 : ℕ) = 2 from rfl]
  rw [lor_esc2 (b / 64) (c1 / 64) (by omega) (by omega),
    lor_mark (b % 64) (by omega), lor_mark (c1 % 64) (by omega)]

theorem translate_three (b c1 c2 : ℕ) (rest : List ℕ)
    (hb : b < 256) (hc1 : c1 < 256) (hc2 : c2 < 256) :
    translate_data (b :: c1 :: c2 :: rest) =
      (64 + 16 * (b / 64) + 4 * (c1 / 64) + c2 / 64) ::
        (64 + b % 64) :: (64 + c1 % 64) :: (64 + c2 % 64) :: translate_data rest := by
  rw [translate_data]
  simp only [List.take_succ_cons, List.take_zero, List.drop_succ_cons, List.drop_zero,
    List.enum, List.enumFrom, List.foldl_cons, List.foldl_nil, List.map_cons,
    List.map_nil, Nat.mul_zero, Nat.sub_zero, Nat.mul_one, Nat.shiftLeft_zero,
    List.cons_append, List.nil_append]
  rw [shiftr6_eq, shiftr6_eq, shiftr6_eq, and63_eq, and63_eq, and63_eq]
  rw [show (1 <<< 6 : ℕ) = 64 from rfl]
  rw [show (4 - 2 : ℕ) = 2 from rfl]
  rw [show (4 - 2 * 2 : ℕ) = 0 from rfl]
  rw [Nat.shiftLeft_zero]
  rw [lor_esc3 (b / 64) (c1 / 64) (c2 / 64) (by omega) (by omega) (by omega),
    lor_mark (b % 64) (by omega), lor_mark (c1 % 64) (by omega),
    lor_mark (c2 % 64) (by omega)]

theorem translate_props_aux :
    ∀ (k : ℕ) (d : List ℕ), d.length ≤ k → (∀ b ∈ d, b < 256) →
      untranslate (translate_data d) = d ∧
      (translate_data d).length =
        4 * (d.length / 3) + (if d.length % 3 = 0 then 0 else d.length % 3 + 1) ∧
      (∀ t ∈ translate_data d, 64 ≤ t ∧ t ≤ 127) := by
  intro k
  induction k with
  | zero =>
    intro d hd _
    have hnil : d = [] := by
      cases d with
      | nil => rfl
      | cons a l => simp at hd
    subst hnil
    refine ⟨by rw [translate_data]; rfl, by simp [translate_data], by simp [translate_data]⟩
  | succ k ih =>
    intro d hd hball
    match d with
    | [] =>
      refine ⟨by rw [translate_data]; rfl, by simp [translate_data], by simp [translate_data]⟩
    | [b] =>
      have hb : b < 256 := hball b (by simp)
      rw [translate_one b hb]
      have e0 : untranslate_byte (64 + 16 * (b / 64)) 0 (64 + b % 64) = b := by
        rw [untranslate_byte_arith]
        omega
      refine ⟨?_, by simp, ?_⟩
      · show [untranslate_byte (64 + 16 * (b / 64)) 0 (64 + b % 64)] = [b]
        rw [e0]
      · intro t ht
        simp only [List.mem_cons, List.not_mem_nil, or_false] at ht
        rcases ht with rfl | rfl <;> omega
    | [b, c1] =>
      have hb : b < 256 := hball b (by simp)
      have hc1 : c1 < 256 := hball c1 (by simp)
      rw [translate_two b c1 hb hc1]
      have e0 : untranslate_byte (64 + 16 * (b / 64) + 4 * (c1 / 64)) 0 (64 + b % 64) = b := by
        rw [untranslate_byte_arith]
        omega
      have e1 : untranslate_byte (64 + 16 * (b / 64) + 4 * (c1 / 64)) 1 (64 + c1 % 64)
          = c1 := by
        rw [untranslate_byte_arith]
        omega
      refine ⟨?_, by simp, ?_⟩
      · show [untranslate_byte (64 + 16 * (b / 64) + 4 * (c1 / 64)) 0 (64 + b % 64),
          untranslate_byte (64 + 16 * (b / 64) + 4 * (c1 / 64)) 1 (64 + c1 % 64)] = [b, c1]
        rw [e0, e1]
      · intro t ht
        simp only [List.mem_cons, List.not_mem_nil, or_false] at ht
        rcases ht with rfl | rfl | rfl <;> omega
    | b :: c1 :: c2 :: rest =>
      have hb : b < 256 := hball b (by simp)
      have hc1 : c1 < 256 := hball c1 (by simp)
      have hc2 : c2 < 256 := hball c2 (by simp)
      have hrest : ∀ x ∈ rest, x < 256 := fun x hx => hball x (by simp [hx])
      have hlen : rest.length ≤ k := by
        simp only [List.length_cons] at hd
        omega
      obtain ⟨ih1, ih2, ih3⟩ := ih rest hlen hrest
      rw [translate_three b c1 c2 rest hb hc1 hc2]
      have e0 : untranslate_byte (64 + 16 * (b / 64) + 4 * (c1 / 64) + c2 / 64) 0
          (64 + b % 64) = b := by
        rw [untranslate_byte_arith]
        omega
      have e1 : untranslate_byte (64 + 16 * (b / 64) + 4 * (c1 / 64) + c2 / 64) 1
          (64 + c1 % 64) = c1 := by
        rw [untranslate_byte_arith]
        omega
      have e2 : untranslate_byte (64 + 16 * (b / 64) + 4 * (c1 / 64) + c2 / 64) 2
          (64 + c2 % 64) = c2 := by
        rw [untranslate_byte_arith]
        omega
      refine ⟨?_, ?_, ?_⟩
      · show untranslate_byte (64 + 16 * (b / 64) + 4 * (c1 / 64) + c2 / 64) 0 (64 + b % 64) ::
          untranslate_byte (64 + 16 * (b / 64) + 4 * (c1 / 64) + c2 / 64) 1 (64 + c1 % 64) ::
          untranslate_byte (64 + 16 * (b / 64) + 4 * (c1 / 64) + c2 / 64) 2 (64 + c2 % 64) ::
          untranslate (translate_data rest) = b :: c1 :: c2 :: rest
        rw [e0, e1, e2, ih1]
      · simp only [List.length_cons, ih2]
        by_cases h0 : rest.length % 3 = 0
        · rw [if_pos h0, if_pos (show (rest.length + 1 + 1 + 1) % 3 = 0 by omega)]
          omega
        · rw [if_neg h0, if_neg (show ¬(rest.length + 1 + 1 + 1) % 3 = 0 by omega)]
          omega
      · intro t ht
        simp only [List.mem_cons] at ht
        rcases ht with rfl | rfl | rfl | rfl | hmem
        · omega
        · omega
        · omega
        · omega
        · exact ih3 t hmem

theorem translate_props (d : List ℕ) (hball : ∀ b ∈ d, b < 256) :
    untranslate (translate_data d) = d ∧
    (translate_data d).length =
      4 * (d.length / 3) + (if d.length % 3 = 0 then 0 else d.length % 3 + 1) ∧
    (∀ t ∈ translate_data d, 64 ≤ t ∧ t ≤ 127) :=
  translate_props_aux d.length d le_rfl hball

/-- Claim C7: for every byte string whose length is divisible by 3,
inverting the translation transform (top two bits of each source byte
from the group escape byte, low six bits from its own byte) recovers the
original byte string. -/
theorem translate_roundtrip (d : List ℕ) (hball : ∀ b ∈ d, b < 256)
    (h3 : d.length % 3 = 0) :
    untranslate (translate_data d) = d :=
  (translate_props d hball).1

/-- Witness for translate_roundtrip on a concrete 3-byte input. -/
theorem translate_roundtrip_witness :
    untranslate (translate_data [1, 130, 255]) = [1, 130, 255] :=
  translate_roundtrip [1, 130, 255] (by decide) (by decide)

/-- Claim C10: the translation transform is total; it emits
4 * (n / 3) bytes for the full 3-byte groups plus a short trailing group
of n % 3 + 1 bytes when n % 3 is nonzero, every emitted byte lies in
[0x40, 0x7F], and the original bytes remain recoverable (the inverse
transform applied to the output returns the input). -/
theorem translate_total_spec (d : List ℕ) (hball : ∀ b ∈ d, b < 256) :
    (translate_data d).length =
      4 * (d.length / 3) + (if d.length % 3 = 0 then 0 else d.length % 3 + 1) ∧
    (∀ t ∈ translate_data d, 0x40 ≤ t ∧ t ≤ 0x7F) ∧
    untranslate (translate_data d) = d :=
  ⟨(translate_props d hball).2.1, (translate_props d hball).2.2,
    (translate_props d hball).1⟩

/-- Witness for translate_total_spec on a concrete 2-byte input with a
short trailing group. -/
theorem translate_total_spec_witness :
    (translate_data [7, 200]).length =
      4 * (([7, 200] : List ℕ).length / 3) +
        (if ([7, 200] : List ℕ).length % 3 = 0 then 0
          else ([7, 200] : List ℕ).length % 3 + 1) ∧
    (∀ t ∈ translate_data [7, 200], 0x40 ≤ t ∧ t ≤ 0x7F) ∧
    untranslate (translate_data [7, 200]) = [7, 200] :=
  translate_total_spec [7, 200] (by decide)

/-! Header builder lemmas (claim C4). -/

theorem encode_integer_zero : encode_integer 0 false = Except.ok [0x40, 1, 0] := rfl

theorem encode_integer_127 :
    encode_integer 0x7F false = Except.ok [0x40, 2, 0, 0x7F] := rfl

theorem encode_normalized_in_range (q : ℚ) (h : -1 ≤ q ∧ q ≤ 1) :
    encode_normalized q = Except.ok (normalized_payload q) := by
  unfold encode_normalized
  rw [if_pos h]

/-- Claim C4, amended to inputs whose derived normalized fractions lie
in [-1, 1] (out of range the builder raises a domain error instead of
emitting directives): the header is exactly, in this fixed order, the
reset directive with Boolean true (when the reset flag is set), the
position directive with Normalized(x / 320) and
Normalized((240 - height - y) / 240 * 0.75), the size directive with
Normalized(width / 320) and Normalized(height / 240 * 0.75), the
degenerate geometry directive with Integer(0), Integer(0),
Normalized(0), Normalized(height / 240 * 0.75), the clear directive
(when the clear flag is set), the quantization announcement (when the
quantization flag is set), and the translation-mode directive (when the
translation flag is set). -/
theorem header_directives (x y width height : ℤ)
    (clear translation reset quantization : Bool)
    (h1 : -1 ≤ (x : ℚ) / SCREEN_WIDTH ∧ (x : ℚ) / SCREEN_WIDTH ≤ 1)
    (h2 : -1 ≤ ((SCREEN_HEIGHT : ℚ) - height - y) / SCREEN_HEIGHT * (3 / 4) ∧
      ((SCREEN_HEIGHT : ℚ) - height - y) / SCREEN_HEIGHT * (3 / 4) ≤ 1)
    (h3 : -1 ≤ (width : ℚ) / SCREEN_WIDTH ∧ (width : ℚ) / SCREEN_WIDTH ≤ 1)
    (h4 : -1 ≤ (height : ℚ) / SCREEN_HEIGHT * (3 / 4) ∧
      (height : ℚ) / SCREEN_HEIGHT * (3 / 4) ≤ 1) :
    encode_header x y width height clear translation reset quantization =
      Except.ok ((if reset then RTD ++ encode_boolean true else [])
        ++ PDA_LOC ++ normalized_payload ((x : ℚ) / SCREEN_WIDTH)
        ++ normalized_payload (((SCREEN_HEIGHT : ℚ) - height - y) / SCREEN_HEIGHT * (3 / 4))
        ++ PDA_PAS ++ normalized_payload ((width : ℚ) / SCREEN_WIDTH)
        ++ normalized_payload ((height : ℚ) / SCREEN_HEIGHT * (3 / 4))
        ++ PDA_PPL ++ [0x40, 1, 0] ++ [0x40, 1, 0]
        ++ normalized_payload 0
        ++ normalized_payload ((height : ℚ) / SCREEN_HEIGHT * (3 / 4))
        ++ (if clear then PDA_CPA ++ encode_boolean clear else [])
        ++ (if quantization then
              ETM ++ [0x44, 0x01, 1] ++ [0x40, 2, 0, 0x7F] ++ [0x44, 0x01, 0x03]
            else [])
        ++ (if translation then TME ++ [0x44, 0x01, 0x02] else [])) := by
  unfold encode_header
  rw [encode_normalized_in_range _ h1, encode_normalized_in_range _ h2,
    encode_normalized_in_range _ h3, encode_normalized_in_range _ h4,
    encode_normalized_in_range 0 (by norm_num),
    encode_integer_zero, encode_integer_127]
  rfl

/-- Witness for header_directives at origin (0, 0), box 320 by 240, and
the default flag assignment. -/
theorem header_directives_witness :
    encode_header 0 0 320 240 true false true false =
      Except.ok ((if true then RTD ++ encode_boolean true else [])
        ++ PDA_LOC ++ normalized_payload (((0 : ℤ) : ℚ) / SCREEN_WIDTH)
        ++ normalized_payload
          (((SCREEN_HEIGHT : ℚ) - ((240 : ℤ) : ℚ) - ((0 : ℤ) : ℚ)) / SCREEN_HEIGHT * (3 / 4))
        ++ PDA_PAS ++ normalized_payload (((320 : ℤ) : ℚ) / SCREEN_WIDTH)
        ++ normalized_payload (((240 : ℤ) : ℚ) / SCREEN_HEIGHT * (3 / 4))
        ++ PDA_PPL ++ [0x40, 1, 0] ++ [0x40, 1, 0]
        ++ normalized_payload 0
        ++ normalized_payload (((240 : ℤ) : ℚ) / SCREEN_HEIGHT * (3 / 4))
        ++ (if true then PDA_CPA ++ encode_boolean true else [])
        ++ (if false then
              ETM ++ [0x44, 0x01, 1] ++ [0x40, 2, 0, 0x7F] ++ [0x44, 0x01, 0x03]
            else [])
        ++ (if false then TME ++ [0x44, 0x01, 0x02] else [])) :=
  header_directives 0 0 320 240 true false true false
    (by norm_num [SCREEN_WIDTH])
    (by norm_num [SCREEN_WIDTH, SCREEN_HEIGHT])
    (by norm_num [SCREEN_WIDTH])
    (by norm_num [SCREEN_WIDTH, SCREEN_HEIGHT])

/-- Counterexample to claim C4 as stated for every origin and box: at
origin x = 640 the position fraction 640 / 320 = 2 is outside [-1, 1],
the normalized encoder raises, and the header builder emits no
directives at all. -/
theorem header_out_of_range_cex :
    encode_header 640 0 320 240 true false true false =
      Except.error EncodeError.domainError := by
  have hnot : ¬(-1 ≤ ((640 : ℤ) : ℚ) / SCREEN_WIDTH ∧
      ((640 : ℤ) : ℚ) / SCREEN_WIDTH ≤ 1) := by
    norm_num [SCREEN_WIDTH]
  have herr : encode_normalized (((640 : ℤ) : ℚ) / SCREEN_WIDTH) =
      Except.error EncodeError.domainError := by
    unfold encode_normalized
    rw [if_neg hnot]
  unfold encode_header
  rw [herr]
  rfl

/-! Image normalizer lemmas (claim C8). -/

theorem pythonRound_intCast (n : ℤ) : pythonRound ((n : ℚ)) = n := by
  unfold pythonRound
  rw [Int.floor_intCast]
  rw [if_pos (by norm_num)]

theorem pythonRound_le_of_lt_half (q : ℚ) (n : ℤ) (h : q < (n : ℚ) + 1 / 2) :
    pythonRound q ≤ n := by
  have hfl : (⌊q⌋ : ℚ) ≤ q := Int.floor_le q
  have hfn : ⌊q⌋ ≤ n := by
    have h2 : (⌊q⌋ : ℚ) < (((n + 1 : ℤ)) : ℚ) := by push_cast; linarith
    have h3 : ⌊q⌋ < n + 1 := by exact_mod_cast h2
    omega
  unfold pythonRound
  rcases lt_trichotomy (q - ⌊q⌋) (1 / 2) with hc | hc | hc
  · rw [if_pos hc]
    exact hfn
  · rw [if_neg (by linarith), if_neg (by linarith)]
    have h5 : (⌊q⌋ : ℚ) < (n : ℚ) := by linarith
    have h6 : ⌊q⌋ < n := by exact_mod_cast h5
    split_ifs <;> omega
  · rw [if_neg (by linarith), if_pos hc]
    have h5 : (⌊q⌋ : ℚ) < (n : ℚ) := by linarith
    have h6 : ⌊q⌋ < n := by exact_mod_cast h5
    omega

theorem flRound_of_pos (q : ℚ) (h0 : 0 < q) :
    flRound q = (pythonRound (q / 2 ^ (max (Int.log 2 q) (-1022) - 52)) : ℚ)
      * 2 ^ (max (Int.log 2 q) (-1022) - 52) := by
  simp only [flRound]
  rw [if_neg h0.ne', abs_of_pos h0, if_neg (not_lt.mpr h0.le), one_mul]

theorem flRound_nonneg (q : ℚ) (hq : 0 ≤ q) : 0 ≤ flRound q := by
  rcases eq_or_lt_of_le hq with h0 | h0
  · rw [← h0]
    simp [flRound]
  · rw [flRound_of_pos q h0]
    have hm : (0 : ℤ) ≤ pythonRound (q / 2 ^ (max (Int.log 2 q) (-1022) - 52)) := by
      apply le_pythonRound_of_le
      push_cast
      exact div_nonneg h0.le (by positivity)
    have hmq : (0 : ℚ) ≤ (pythonRound (q / 2 ^ (max (Int.log 2 q) (-1022) - 52)) : ℚ) := by
      exact_mod_cast hm
    exact mul_nonneg hmq (by positivity)

theorem flRound_err (q : ℚ) (hq : 0 ≤ q) :
    |flRound q - q| ≤ q / 2 ^ 53 + 1 / 2 ^ 1075 := by
  rcases eq_or_lt_of_le hq with h0 | h0
  · rw [← h0]
    simp only [flRound, if_pos rfl]
    norm_num
  · rw [flRound_of_pos q h0]
    set s : ℚ := 2 ^ (max (Int.log 2 q) (-1022) - 52) with hs
    have hspos : (0 : ℚ) < s := by rw [hs]; positivity
    have hr := pythonRound_sub_abs_le (q / s)
    have key : (pythonRound (q / s) : ℚ) * s - q
        = ((pythonRound (q / s) : ℚ) - q / s) * s := by
      field_simp
    rw [key, abs_mul, abs_of_pos hspos]
    have h1 : |(pythonRound (q / s) : ℚ) - q / s| * s ≤ 1 / 2 * s :=
      mul_le_mul_of_nonneg_right hr hspos.le
    have h2 : 1 / 2 * s ≤ q / 2 ^ 53 + 1 / 2 ^ 1075 := by
      rcases le_or_lt (-1022 : ℤ) (Int.log 2 q) with hcase | hcase
      · have hee : max (Int.log 2 q) (-1022) = Int.log 2 q := max_eq_left hcase
        have hzle : (2 : ℚ) ^ Int.log 2 q ≤ q := by
          exact_mod_cast Int.zpow_log_le_self (by norm_num : 1 < 2) h0
        have hsle : s ≤ q / 2 ^ 52 := by
          rw [hs, hee, le_div_iff (by positivity : (0 : ℚ) < (2 : ℚ) ^ 52)]
          calc (2 : ℚ) ^ (Int.log 2 q - 52) * 2 ^ 52
              = 2 ^ Int.log 2 q := by
                rw [← zpow_natCast (2 : ℚ) 52, ← zpow_add₀ (by norm_num : (2 : ℚ) ≠ 0)]
                congr 1
                push_cast
                ring
            _ ≤ q := hzle
        have hq53 : 1 / 2 * (q / 2 ^ 52) = q / 2 ^ 53 := by ring
        have hlast : (0 : ℚ) ≤ 1 / 2 ^ 1075 := by positivity
        linarith
      · have hee : max (Int.log 2 q) (-1022) = -1022 := max_eq_right hcase.le
        have hsval : s = 1 / 2 ^ (1074 : ℕ) := by
          rw [hs, hee, show (-1022 - 52 : ℤ) = -((1074 : ℕ) : ℤ) by norm_num,
            zpow_neg, zpow_natCast, one_div]
        have hq53 : (0 : ℚ) ≤ q / 2 ^ 53 := by positivity
        have hfin : 1 / 2 * s ≤ 1 / 2 ^ 1075 := by
          rw [hsval, div_mul_div_comm]
          norm_num
        linarith
    exact le_trans h1 h2

theorem flRound_natCast (n : ℕ) (h1 : 0 < n) (h2 : n < 2 ^ 53) :
    flRound ((n : ℚ)) = (n : ℚ) := by
  have hpos : (0 : ℚ) < (n : ℚ) := by exact_mod_cast h1
  rw [flRound_of_pos _ hpos, Int.log_natCast]
  rw [max_eq_left (by omega : (-1022 : ℤ) ≤ ((Nat.log 2 n : ℕ) : ℤ))]
  have hl52 : Nat.log 2 n ≤ 52 := by
    have h3 : Nat.log 2 n < 53 := Nat.log_lt_of_lt_pow h1.ne' h2
    omega
  rw [show ((Nat.log 2 n : ℕ) : ℤ) - 52 = -(((52 - Nat.log 2 n : ℕ)) : ℤ) by omega]
  rw [zpow_neg, zpow_natCast, div_inv_eq_mul]
  rw [show (n : ℚ) * (2 : ℚ) ^ (52 - Nat.log 2 n)
      = (((n * 2 ^ (52 - Nat.log 2 n) : ℕ) : ℤ) : ℚ) by push_cast; ring]
  rw [pythonRound_intCast]
  push_cast
  rw [mul_assoc, mul_inv_cancel₀ (by positivity : ((2 : ℚ) ^ (52 - Nat.log 2 n)) ≠ 0),
    mul_one]

/-- Claim C8, amended: with the resize arithmetic modelled exactly as
binary64 floating point and source dimensions below 2 ^ 53 (where the
int-to-float conversion is exact), the scale ratio is
min(320 / w, 240 / h, 1) computed in floats (never upscaling), and the
scaled width and height are rounded to the NEAREST multiples of 8 and
10 respectively (ties upward) — not rounded up as the claim states; the
results satisfy 0 ≤ width ≤ 320, 0 ≤ height ≤ 240, width divisible by
8, height divisible by 10, and resampling is skipped exactly when the
rounded dimensions equal the originals. -/
theorem resize_bounds (w h : ℕ) (hw : 0 < w) (hw2 : w < 2 ^ 53)
    (hh : 0 < h) (hh2 : h < 2 ^ 53) :
    0 ≤ (resize_dims w h).1 ∧ (resize_dims w h).1 ≤ 320 ∧
    0 ≤ (resize_dims w h).2 ∧ (resize_dims w h).2 ≤ 240 ∧
    (resize_dims w h).1 % 8 = 0 ∧ (resize_dims w h).2 % 10 = 0 ∧
    pythonRound (flRound ((w : ℚ) * min (flRound ((SCREEN_WIDTH : ℚ) / w))
        (min (flRound ((SCREEN_HEIGHT : ℚ) / h)) 1))) - 4 < (resize_dims w h).1 ∧
    (resize_dims w h).1
      ≤ pythonRound (flRound ((w : ℚ) * min (flRound ((SCREEN_WIDTH : ℚ) / w))
        (min (flRound ((SCREEN_HEIGHT : ℚ) / h)) 1))) + 4 ∧
    pythonRound (flRound ((h : ℚ) * min (flRound ((SCREEN_WIDTH : ℚ) / w))
        (min (flRound ((SCREEN_HEIGHT : ℚ) / h)) 1))) - 5 < (resize_dims w h).2 ∧
    (resize_dims w h).2
      ≤ pythonRound (flRound ((h : ℚ) * min (flRound ((SCREEN_WIDTH : ℚ) / w))
        (min (flRound ((SCREEN_HEIGHT : ℚ) / h)) 1))) + 5 ∧
    (resize_image w h).1 = resize_dims w h ∧
    ((resize_image w h).2 = false ↔ resize_dims w h = ((w : ℤ), (h : ℤ))) := by
  have hwq : ((w : ℚ)) ≠ 0 := Nat.cast_ne_zero.mpr (by omega)
  have hhq : ((h : ℚ)) ≠ 0 := Nat.cast_ne_zero.mpr (by omega)
  have hwq0 : (0 : ℚ) < (w : ℚ) := by exact_mod_cast hw
  have hhq0 : (0 : ℚ) < (h : ℚ) := by exact_mod_cast hh
  have hwle : ((w : ℚ)) ≤ 2 ^ 53 := by exact_mod_cast hw2.le
  have hhle : ((h : ℚ)) ≤ 2 ^ 53 := by exact_mod_cast hh2.le
  have hWcast : ((SCREEN_WIDTH : ℕ) : ℚ) = 320 := by norm_num [SCREEN_WIDTH]
  have hHcast : ((SCREEN_HEIGHT : ℕ) : ℚ) = 240 := by norm_num [SCREEN_HEIGHT]
  have hflw : flRound ((w : ℚ)) = (w : ℚ) := flRound_natCast w hw hw2
  have hflh : flRound ((h : ℚ)) = (h : ℚ) := flRound_natCast h hh hh2
  have hfW0 : 0 ≤ flRound ((320 : ℚ) / w) := flRound_nonneg _ (by positivity)
  have hfH0 : 0 ≤ flRound ((240 : ℚ) / h) := flRound_nonneg _ (by positivity)
  have hR0 : 0 ≤ min (flRound ((320 : ℚ) / w)) (min (flRound ((240 : ℚ) / h)) 1) :=
    le_min hfW0 (le_min hfH0 zero_le_one)
  have herrW := flRound_err ((320 : ℚ) / w) (by positivity)
  have herrH := flRound_err ((240 : ℚ) / h) (by positivity)
  rw [abs_le] at herrW herrH
  have hRW : min (flRound ((320 : ℚ) / w)) (min (flRound ((240 : ℚ) / h)) 1)
      ≤ flRound ((320 : ℚ) / w) := min_le_left _ _
  have hRH : min (flRound ((320 : ℚ) / w)) (min (flRound ((240 : ℚ) / h)) 1)
      ≤ flRound ((240 : ℚ) / h) :=
    le_trans (min_le_right _ _) (min_le_left _ _)
  have hfW_ub : flRound ((320 : ℚ) / w)
      ≤ 320 / (w : ℚ) + (320 / (w : ℚ)) / 2 ^ 53 + 1 / 2 ^ 1075 := by
    linarith [herrW.2]
  have hfH_ub : flRound ((240 : ℚ) / h)
      ≤ 240 / (h : ℚ) + (240 / (h : ℚ)) / 2 ^ 53 + 1 / 2 ^ 1075 := by
    linarith [herrH.2]
  have hPW_ub : (w : ℚ) * min (flRound ((320 : ℚ) / w)) (min (flRound ((240 : ℚ) / h)) 1)
      ≤ 320 + 320 / 2 ^ 53 + 1 / 2 ^ 1022 := by
    have h2 : (w : ℚ) * min (flRound ((320 : ℚ) / w)) (min (flRound ((240 : ℚ) / h)) 1)
        ≤ (w : ℚ) * (320 / (w : ℚ) + (320 / (w : ℚ)) / 2 ^ 53 + 1 / 2 ^ 1075) :=
      mul_le_mul_of_nonneg_left (le_trans hRW hfW_ub) hwq0.le
    have h3 : (w : ℚ) * (320 / (w : ℚ) + (320 / (w : ℚ)) / 2 ^ 53 + 1 / 2 ^ 1075)
        = 320 + 320 / 2 ^ 53 + (w : ℚ) / 2 ^ 1075 := by
      field_simp
      ring
    rw [h3] at h2
    have h4 : (w : ℚ) / 2 ^ 1075 ≤ 1 / 2 ^ 1022 := by
      rw [div_le_div_iff (by positivity) (by positivity)]
      have h5 : (w : ℚ) * 2 ^ 1022 ≤ 2 ^ 53 * 2 ^ 1022 :=
        mul_le_mul_of_nonneg_right hwle (by positivity)
      have h6 : (2 : ℚ) ^ 53 * 2 ^ 1022 = 1 * 2 ^ 1075 := by
        rw [one_mul, ← pow_add]
      linarith
    linarith
  have hPH_ub : (h : ℚ) * min (flRound ((320 : ℚ) / w)) (min (flRound ((240 : ℚ) / h)) 1)
      ≤ 240 + 240 / 2 ^ 53 + 1 / 2 ^ 1022 := by
    have h2 : (h : ℚ) * min (flRound ((320 : ℚ) / w)) (min (flRound ((240 : ℚ) / h)) 1)
        ≤ (h : ℚ) * (240 / (h : ℚ) + (240 / (h : ℚ)) / 2 ^ 53 + 1 / 2 ^ 1075) :=
      mul_le_mul_of_nonneg_left (le_trans hRH hfH_ub) hhq0.le
    have h3 : (h : ℚ) * (240 / (h : ℚ) + (240 / (h : ℚ)) / 2 ^ 53 + 1 / 2 ^ 1075)
        = 240 + 240 / 2 ^ 53 + (h : ℚ) / 2 ^ 1075 := by
      field_simp
      ring
    rw [h3] at h2
    have h4 : (h : ℚ) / 2 ^ 1075 ≤ 1 / 2 ^ 1022 := by
      rw [div_le_div_iff (by positivity) (by positivity)]
      have h5 : (h : ℚ) * 2 ^ 1022 ≤ 2 ^ 53 * 2 ^ 1022 :=
        mul_le_mul_of_nonneg_right hhle (by positivity)
      have h6 : (2 : ℚ) ^ 53 * 2 ^ 1022 = 1 * 2 ^ 1075 := by
        rw [one_mul, ← pow_add]
      linarith
    linarith
  have hPW0 : 0 ≤ (w : ℚ) * min (flRound ((320 : ℚ) / w))
      (min (flRound ((240 : ℚ) / h)) 1) := mul_nonneg hwq0.le hR0
  have hPH0 : 0 ≤ (h : ℚ) * min (flRound ((320 : ℚ) / w))
      (min (flRound ((240 : ℚ) / h)) 1) := mul_nonneg hhq0.le hR0
  have herrGW := flRound_err ((w : ℚ) * min (flRound ((320 : ℚ) / w))
    (min (flRound ((240 : ℚ) / h)) 1)) hPW0
  have herrGH := flRound_err ((h : ℚ) * min (flRound ((320 : ℚ) / w))
    (min (flRound ((240 : ℚ) / h)) 1)) hPH0
  rw [abs_le] at herrGW herrGH
  have hGW0 : 0 ≤ flRound ((w : ℚ) * min (flRound ((320 : ℚ) / w))
      (min (flRound ((240 : ℚ) / h)) 1)) := flRound_nonneg _ hPW0
  have hGH0 : 0 ≤ flRound ((h : ℚ) * min (flRound ((320 : ℚ) / w))
      (min (flRound ((240 : ℚ) / h)) 1)) := flRound_nonneg _ hPH0
  have hGW_lt : flRound ((w : ℚ) * min (flRound ((320 : ℚ) / w))
      (min (flRound ((240 : ℚ) / h)) 1)) < 320 + 1 / 2 := by
    have h2 := herrGW.2
    linarith
  have hGH_lt : flRound ((h : ℚ) * min (flRound ((320 : ℚ) / w))
      (min (flRound ((240 : ℚ) / h)) 1)) < 240 + 1 / 2 := by
    have h2 := herrGH.2
    linarith
  have hvW_ub : pythonRound (flRound ((w : ℚ) * min (flRound ((320 : ℚ) / w))
      (min (flRound ((240 : ℚ) / h)) 1))) ≤ 320 := by
    apply pythonRound_le_of_lt_half
    push_cast
    linarith [hGW_lt]
  have hvH_ub : pythonRound (flRound ((h : ℚ) * min (flRound ((320 : ℚ) / w))
      (min (flRound ((240 : ℚ) / h)) 1))) ≤ 240 := by
    apply pythonRound_le_of_lt_half
    push_cast
    linarith [hGH_lt]
  have hvW_lb : (0 : ℤ) ≤ pythonRound (flRound ((w : ℚ) * min (flRound ((320 : ℚ) / w))
      (min (flRound ((240 : ℚ) / h)) 1))) := by
    apply le_pythonRound_of_le
    push_cast
    exact hGW0
  have hvH_lb : (0 : ℤ) ≤ pythonRound (flRound ((h : ℚ) * min (flRound ((320 : ℚ) / w))
      (min (flRound ((240 : ℚ) / h)) 1))) := by
    apply le_pythonRound_of_le
    push_cast
    exact hGH0
  have him : (resize_image w h).1 = resize_dims w h := by
    unfold resize_image
    split_ifs with hcase
    · rw [hcase]
    · rfl
  have hskip : (resize_image w h).2 = false ↔ resize_dims w h = ((w : ℤ), (h : ℤ)) := by
    unfold resize_image
    split_ifs with hcase
    · simp [hcase]
    · simp [hcase]
  have hdef1 : (resize_dims w h).1 =
      (pythonRound (flRound (flRound ((w : ℚ)) * min (flRound ((SCREEN_WIDTH : ℚ) / w))
        (min (flRound ((SCREEN_HEIGHT : ℚ) / h)) 1))) + 4).fdiv 8 * 8 := rfl
  have hdef2 : (resize_dims w h).2 =
      (pythonRound (flRound (flRound ((h : ℚ)) * min (flRound ((SCREEN_WIDTH : ℚ) / w))
        (min (flRound ((SCREEN_HEIGHT : ℚ) / h)) 1))) + 5).fdiv 10 * 10 := rfl
  rw [hflw, hWcast, hHcast] at hdef1
  rw [hflh, hWcast, hHcast] at hdef2
  rw [hWcast, hHcast, hdef1, hdef2]
  rw [Int.fdiv_eq_ediv _ (by norm_num), Int.fdiv_eq_ediv _ (by norm_num)]
  exact ⟨by omega, by omega, by omega, by omega, by omega, by omega,
    by omega, by omega, by omega, by omega, him, hskip⟩

/-- Witness for resize_bounds: a 640 by 480 source scales to the full
320 by 240 canvas. -/
theorem resize_bounds_witness :
    0 ≤ (resize_dims 640 480).1 ∧ (resize_dims 640 480).1 ≤ 320 ∧
    0 ≤ (resize_dims 640 480).2 ∧ (resize_dims 640 480).2 ≤ 240 ∧
    (resize_dims 640 480).1 % 8 = 0 ∧ (resize_dims 640 480).2 % 10 = 0 ∧
    pythonRound (flRound (((640 : ℕ) : ℚ) * min (flRound ((SCREEN_WIDTH : ℚ) / (640 : ℕ)))
        (min (flRound ((SCREEN_HEIGHT : ℚ) / (480 : ℕ))) 1))) - 4
      < (resize_dims 640 480).1 ∧
    (resize_dims 640 480).1
      ≤ pythonRound (flRound (((640 : ℕ) : ℚ) * min (flRound ((SCREEN_WIDTH : ℚ) / (640 : ℕ)))
        (min (flRound ((SCREEN_HEIGHT : ℚ) / (480 : ℕ))) 1))) + 4 ∧
    pythonRound (flRound (((480 : ℕ) : ℚ) * min (flRound ((SCREEN_WIDTH : ℚ) / (640 : ℕ)))
        (min (flRound ((SCREEN_HEIGHT : ℚ) / (480 : ℕ))) 1))) - 5
      < (resize_dims 640 480).2 ∧
    (resize_dims 640 480).2
      ≤ pythonRound (flRound (((480 : ℕ) : ℚ) * min (flRound ((SCREEN_WIDTH : ℚ) / (640 : ℕ)))
        (min (flRound ((SCREEN_HEIGHT : ℚ) / (480 : ℕ))) 1))) + 5 ∧
    (resize_image 640 480).1 = resize_dims 640 480 ∧
    ((resize_image 640 480).2 = false ↔
      resize_dims 640 480 = (((640 : ℕ) : ℤ), ((480 : ℕ) : ℤ))) :=
  resize_bounds 640 480 (by norm_num) (by norm_num) (by norm_num) (by norm_num)

/-- Counterexample to the round-up wording of claim C8: a 9 by 10
source is left at ratio 1, so the scaled width is 9; rounding 9 up to
the next multiple of 8 would give 16, but the code emits width 8 (the
nearest multiple). -/
theorem resize_round_nearest_cex :
    resize_dims 9 10 = (8, 10) ∧
    pythonRound (flRound (flRound (((9 : ℕ) : ℚ)) *
      min (flRound ((SCREEN_WIDTH : ℚ) / ((9 : ℕ) : ℚ)))
        (min (flRound ((SCREEN_HEIGHT : ℚ) / ((10 : ℕ) : ℚ))) 1))) = 9 ∧
    ((8 : ℤ), (10 : ℤ)) ≠ ((16 : ℤ), (10 : ℤ)) := by
  have hq24 : (SCREEN_HEIGHT : ℚ) / ((10 : ℕ) : ℚ) = ((24 : ℕ) : ℚ) := by
    norm_num [SCREEN_HEIGHT]
  have hfH : flRound ((SCREEN_HEIGHT : ℚ) / ((10 : ℕ) : ℚ)) = 24 := by
    rw [hq24, flRound_natCast 24 (by norm_num) (by norm_num)]
    norm_num
  have hq9 : (SCREEN_WIDTH : ℚ) / ((9 : ℕ) : ℚ) = 320 / 9 := by
    norm_num [SCREEN_WIDTH]
  have herr := flRound_err ((320 : ℚ) / 9) (by norm_num)
  rw [abs_le] at herr
  have hfW_ge1 : (1 : ℚ) ≤ flRound ((SCREEN_WIDTH : ℚ) / ((9 : ℕ) : ℚ)) := by
    rw [hq9]
    have h1 := herr.1
    linarith
  have hmin : min (flRound ((SCREEN_WIDTH : ℚ) / ((9 : ℕ) : ℚ)))
      (min (flRound ((SCREEN_HEIGHT : ℚ) / ((10 : ℕ) : ℚ))) 1) = 1 := by
    rw [hfH, min_eq_right (by norm_num : (1 : ℚ) ≤ 24)]
    exact min_eq_right hfW_ge1
  have hfl9 : flRound (((9 : ℕ) : ℚ)) = ((9 : ℕ) : ℚ) :=
    flRound_natCast 9 (by norm_num) (by norm_num)
  have hfl10 : flRound (((10 : ℕ) : ℚ)) = ((10 : ℕ) : ℚ) :=
    flRound_natCast 10 (by norm_num) (by norm_num)
  have hr9 : pythonRound (flRound (flRound (((9 : ℕ) : ℚ)) *
      min (flRound ((SCREEN_WIDTH : ℚ) / ((9 : ℕ) : ℚ)))
        (min (flRound ((SCREEN_HEIGHT : ℚ) / ((10 : ℕ) : ℚ))) 1))) = 9 := by
    rw [hmin, hfl9, mul_one, hfl9]
    rw [show (((9 : ℕ)) : ℚ) = (((9 : ℤ)) : ℚ) by norm_num, pythonRound_intCast]
  have hr10 : pythonRound (flRound (flRound (((10 : ℕ) : ℚ)) *
      min (flRound ((SCREEN_WIDTH : ℚ) / ((9 : ℕ) : ℚ)))
        (min (flRound ((SCREEN_HEIGHT : ℚ) / ((10 : ℕ) : ℚ))) 1))) = 10 := by
    rw [hmin, hfl10, mul_one, hfl10]
    rw [show (((10 : ℕ)) : ℚ) = (((10 : ℤ)) : ℚ) by norm_num, pythonRound_intCast]
  refine ⟨?_, hr9, by decide⟩
  show ((pythonRound (flRound (flRound (((9 : ℕ) : ℚ)) *
      min (flRound ((SCREEN_WIDTH : ℚ) / ((9 : ℕ) : ℚ)))
        (min (flRound ((SCREEN_HEIGHT : ℚ) / ((10 : ℕ) : ℚ))) 1))) + 4).fdiv 8 * 8,
    (pythonRound (flRound (flRound (((10 : ℕ) : ℚ)) *
      min (flRound ((SCREEN_WIDTH : ℚ) / ((9 : ℕ) : ℚ)))
        (min (flRound ((SCREEN_HEIGHT : ℚ) / ((10 : ℕ) : ℚ))) 1))) + 5).fdiv 10 * 10)
    = ((8 : ℤ), (10 : ℤ))
  rw [hr9, hr10]
  decide

/-! Conversion batch lemmas (claim C9). -/

/-- Claim C9: every item of the batch is processed in order; a failing
item is recorded as a failure paired with its source identity, a
succeeding item as its artifact, and a failure never removes or stops
the processing of any other item (the output has one record per input,
at the same position). -/
theorem batch_isolation {α ε β : Type} (process : α → Except ε β) (items : List α)
    (i : ℕ) (hi : i < items.length) :
    (convert_images process items).length = items.length ∧
    ∃ p r, items[i]? = some p ∧ (convert_images process items)[i]? = some (p, r) ∧
      (∀ b, process p = Except.ok b → r = ConvResult.ok b) ∧
      (∀ e, process p = Except.error e → r = ConvResult.failed e) := by
  constructor
  · clear hi
    induction items with
    | nil => rfl
    | cons p rest ih =>
      simp only [convert_images, List.length_cons, ih]
  · induction items generalizing i with
    | nil => simp at hi
    | cons p rest ih =>
      cases i with
      | zero =>
        cases hp : process p with
        | ok b =>
          refine ⟨p, ConvResult.ok b, by simp, ?_, ?_, ?_⟩
          · simp [convert_images, hp]
          · intro b' hb'
            rw [hp] at hb'
            cases hb'
            rfl
          · intro e he
            rw [hp] at he
            cases he
        | error e =>
          refine ⟨p, ConvResult.failed e, by simp, ?_, ?_, ?_⟩
          · simp [convert_images, hp]
          · intro b hb
            rw [hp] at hb
            cases hb
          · intro e' he'
            rw [hp] at he'
            cases he'
            rfl
      | succ i =>
        have hi' : i < rest.length := by
          simp only [List.length_cons] at hi
          omega
        obtain ⟨p', r', h1, h2, h3, h4⟩ := ih i hi'
        exact ⟨p', r', by simpa using h1, by simpa [convert_images] using h2, h3, h4⟩

/-- Witness for batch_isolation: a batch of three items whose second
fails; the third is still processed and recorded. -/
theorem batch_isolation_witness :
    (convert_images (fun a => if a = 20 then Except.error 7 else Except.ok (a + 1))
        [10, 20, 30]).length = ([10, 20, 30] : List ℕ).length ∧
    ∃ p r, ([10, 20, 30] : List ℕ)[2]? = some p ∧
      (convert_images (fun a => if a = 20 then Except.error 7 else Except.ok (a + 1))
        [10, 20, 30])[2]? = some (p, r) ∧
      (∀ b : ℕ, (if p = 20 then Except.error 7 else Except.ok (p + 1)) = Except.ok b →
        r = ConvResult.ok b) ∧
      (∀ e : ℕ, (if p = 20 then Except.error 7 else Except.ok (p + 1)) = Except.error e →
        r = ConvResult.failed e) :=
  batch_isolation (fun a => if a = 20 then Except.error 7 else Except.ok (a + 1))
    [10, 20, 30] 2 (by decide)

end Minitel
